import Mathlib

/-!
Verification of the OSC 9;4 progress module (`src/oscProgress.ts`).

Text is modelled as `List Char`.  The wire constants mirror
`OSC_PROGRESS_PREFIX`, `OSC_PROGRESS_ST`, `OSC_PROGRESS_BEL` and
`OSC_PROGRESS_C1_ST`; JavaScript `String.prototype.indexOf` is modelled by
`idxOf?` / `idxFrom`, `replaceAll` of the two-character ST sequence by
`removeST`, single-character `replaceAll`/`split`-`join` removals by
`List.filter`, and `trim` by `trimL`.
-/

/-- The ESC control character `0x1b`. -/
def escChar : Char := '\x1b'

/-- The BEL control character `0x07` (`OSC_PROGRESS_BEL`). -/
def belChar : Char := '\x07'

/-- The C1 String Terminator character `0x9c` (`OSC_PROGRESS_C1_ST`). -/
def c1Char : Char := '\x9c'

/-- The OSC 9;4 progress introducer `ESC ] 9 ; 4 ;` (`OSC_PROGRESS_PREFIX`). -/
def oscPre : List Char := [escChar, ']', '9', ';', '4', ';']

/-- The ST terminator `ESC \` (`OSC_PROGRESS_ST`). -/
def oscST : List Char := [escChar, '\\']

/-- The BEL terminator as a one-character sequence. -/
def oscBEL : List Char := [belChar]

/-- The C1 ST terminator as a one-character sequence. -/
def oscC1 : List Char := [c1Char]

/-- JavaScript `text.indexOf(pat)`: index of the first occurrence of `pat`
in `s`, or `none`.  An occurrence must fit entirely inside `s`. -/
def idxOf? (pat : List Char) : List Char → Option Nat
  | [] => if pat.isEmpty then some 0 else none
  | c :: rest =>
      if pat.isPrefixOf (c :: rest) then some 0
      else (idxOf? pat rest).map (· + 1)

/-- JavaScript `text.indexOf(pat, start)`: first occurrence at index
`start` or later. -/
def idxFrom (pat : List Char) (s : List Char) (start : Nat) : Option Nat :=
  (idxOf? pat (s.drop start)).map (· + start)

/-- JavaScript `label.replaceAll(OSC_PROGRESS_ST, '')`: removes every
(left-to-right, non-overlapping) occurrence of the two-character ST
sequence. -/
def removeST : List Char → List Char
  | [] => []
  | [c] => [c]
  | a :: b :: rest =>
      if a = escChar ∧ b = '\\' then removeST rest
      else a :: removeST (b :: rest)

/-- The whitespace test used by JavaScript `String.prototype.trim`. -/
def isJsWhitespace (c : Char) : Bool :=
  c == ' ' || c == '\t' || c == '\n' || c == '\r' || c == '\x0b' ||
  c == '\x0c' || c.toNat == 0xa0 || c.toNat == 0x1680 ||
  (0x2000 ≤ c.toNat && c.toNat ≤ 0x200a) || c.toNat == 0x2028 ||
  c.toNat == 0x2029 || c.toNat == 0x202f || c.toNat == 0x205f ||
  c.toNat == 0x3000 || c.toNat == 0xfeff

/-- JavaScript `String.prototype.trim`: drops leading and trailing
whitespace. -/
def trimL (l : List Char) : List Char :=
  ((l.dropWhile isJsWhitespace).reverse.dropWhile isJsWhitespace).reverse

/-- `sanitizeLabel` from `src/oscProgress.ts`: removes ST occurrences, every
ESC, BEL, C1-ST and `]` character, then trims whitespace. -/
def sanitizeLabel (label : List Char) : List Char :=
  let withoutSt := removeST label
  let withoutEscape := withoutSt.filter (fun c => c != escChar)
  let withoutTerminators :=
    (withoutEscape.filter (fun c => c != belChar)).filter (fun c => c != c1Char)
  trimL (withoutTerminators.filter (fun c => c != ']'))

/-- Options record of `supportsOscProgress` (`OscProgressSupportOptions`);
absent boolean fields are modelled as `false` (JavaScript truthiness of
`undefined`), absent env-var names as `none`. -/
structure OscProgressSupportOptions where
  force : Bool
  disabled : Bool
  disableEnvVar : Option String
  forceEnvVar : Option String
deriving DecidableEq

/-- The options record with nothing set. -/
def noOverrides : OscProgressSupportOptions := ⟨false, false, none, none⟩

/-- Key of the terminal-program environment variable. -/
def termProgramKey : String := "TERM_PROGRAM"

/-- Key of the Windows Terminal session environment variable. -/
def wtSessionKey : String := "WT_SESSION"

/-- Lower-cased characters of `env.TERM_PROGRAM ?? ''`. -/
def termProgramLower (env : String → Option String) : List Char :=
  ((env termProgramKey).getD "").toList.map Char.toLower

/-- JavaScript truthiness of `options.disableEnvVar && env[...] === '1'`:
the env-var name must be set and non-empty and its value exactly `"1"`. -/
def envFlagSet (env : String → Option String) : Option String → Bool
  | some v => v != "" && env v == some "1"
  | none => false

/-- JavaScript truthiness of `env.WT_SESSION`: present with a non-empty
value. -/
def envTruthy (env : String → Option String) (key : String) : Bool :=
  match env key with
  | some v => v != ""
  | none => false

/-- JavaScript `haystack.includes(pat)`: whether `pat` occurs in `s`. -/
def containsSeq (pat s : List Char) : Bool := (idxOf? pat s).isSome

/-- Lower-cased characters of `'ghostty'`. -/
def ghosttyChars : List Char := ['g', 'h', 'o', 's', 't', 't', 'y']

/-- Lower-cased characters of `'wezterm'`. -/
def weztermChars : List Char := ['w', 'e', 'z', 't', 'e', 'r', 'm']

/-- `supportsOscProgress` from `src/oscProgress.ts`, with the environment
as an explicit lookup function. -/
def supportsOscProgress (env : String → Option String) (isTty : Bool)
    (options : OscProgressSupportOptions) : Bool :=
  if !isTty then false
  else if options.disabled then false
  else if options.force then true
  else if envFlagSet env options.disableEnvVar then false
  else if envFlagSet env options.forceEnvVar then true
  else if containsSeq ghosttyChars (termProgramLower env) then true
  else if containsSeq weztermChars (termProgramLower env) then true
  else if envTruthy env wtSessionKey then true
  else false

/-- Which terminator closed a matched sequence (`OscProgressSequence.terminator`). -/
inductive OscTerminatorKind
  | st
  | bel
  | c1st
deriving DecidableEq

/-- The character sequence of a terminator kind. -/
def termPat : OscTerminatorKind → List Char
  | .st => oscST
  | .bel => oscBEL
  | .c1st => oscC1

/-- A match of `findOscProgressSequences`: start index (inclusive), end
index (exclusive, named `endEx` for the source's `end`), the raw matched
substring and the terminator kind. -/
structure OscProgressSequence where
  start : Nat
  endEx : Nat
  raw : List Char
  terminator : OscTerminatorKind
deriving DecidableEq

/-- The exclusive end offset of the first occurrence of terminator kind `k`
at or after index `after` (the source's `xxStart + pattern.length`). -/
def termEnd? (k : OscTerminatorKind) (text : List Char) (after : Nat) : Option Nat :=
  (idxFrom (termPat k) text after).map (· + (termPat k).length)

/-- The candidate list built by `findOscProgressSequences`, in source
order: ST, then BEL, then C1 ST. -/
def candidatesAt (text : List Char) (after : Nat) : List (Nat × OscTerminatorKind) :=
  ((termEnd? .st text after).map (fun e => (e, OscTerminatorKind.st))).toList ++
  ((termEnd? .bel text after).map (fun e => (e, OscTerminatorKind.bel))).toList ++
  ((termEnd? .c1st text after).map (fun e => (e, OscTerminatorKind.c1st))).toList

/-- First element with minimal end offset: the source's stable
`candidates.sort((a, b) => a.endExclusive - b.endExclusive)` followed by
taking `candidates[0]`. -/
def pickMin : List (Nat × OscTerminatorKind) → Option (Nat × OscTerminatorKind)
  | [] => none
  | c :: cs =>
      some (match pickMin cs with
        | none => c
        | some d => if d.1 < c.1 then d else c)

/-- The winning candidate at a prefix occurrence whose payload begins at
`after`, or `none` if no terminator follows. -/
def bestCandidate (text : List Char) (after : Nat) : Option (Nat × OscTerminatorKind) :=
  pickMin (candidatesAt text after)

/-- Fuel-indexed body of the `findOscProgressSequences` scan loop; the
fuel only bounds the iteration count and `text.length + 1` is always
enough. -/
def findGo : Nat → List Char → Nat → List OscProgressSequence
  | 0, _, _ => []
  | fuel + 1, text, searchFrom =>
      if searchFrom < text.length then
        match idxFrom oscPre text searchFrom with
        | none => []
        | some start =>
            match bestCandidate text (start + oscPre.length) with
            | none => findGo fuel text (start + oscPre.length)
            | some best =>
                ⟨start, best.1, (text.take best.1).drop start, best.2⟩ ::
                  findGo fuel text best.1
      else []

/-- `findOscProgressSequences` from `src/oscProgress.ts`. -/
def findOscProgressSequences (text : List Char) : List OscProgressSequence :=
  findGo (text.length + 1) text 0

/-- The end offsets considered by one iteration of `stripOscProgress`, in
source order (ST, BEL, C1 ST). -/
def endsAt (text : List Char) (after : Nat) : List Nat :=
  (candidatesAt text after).map Prod.fst

/-- Minimum of a list of naturals (`Math.min(...ends)` for a non-empty
array). -/
def minList : List Nat → Option Nat
  | [] => none
  | x :: xs =>
      some (match minList xs with
        | none => x
        | some m => min x m)

/-- One iteration of the `stripOscProgress` loop: `none` when the text no
longer contains the progress introducer, otherwise the text with the first
introduced span cut out (to the earliest terminator end, or to the end of
the text when unterminated). -/
def stripStep? (text : List Char) : Option (List Char) :=
  match idxOf? oscPre text with
  | none => none
  | some start =>
      let cutEnd :=
        match minList (endsAt text (start + oscPre.length)) with
        | none => text.length
        | some m => m
      some (text.take start ++ text.drop cutEnd)

/-- Fuel-indexed `stripOscProgress` loop; `text.length + 1` fuel always
suffices because each iteration removes at least the six introducer
characters. -/
def stripGo : Nat → List Char → List Char
  | 0, current => current
  | fuel + 1, current =>
      match stripStep? current with
      | none => current
      | some next => stripGo fuel next

/-- `stripOscProgress` from `src/oscProgress.ts`. -/
def stripOscProgress (text : List Char) : List Char :=
  stripGo (text.length + 1) text

/-- `sanitizeOscProgress` from `src/oscProgress.ts`. -/
def sanitizeOscProgress (text : List Char) (keepOsc : Bool) : List Char :=
  if keepOsc then text else stripOscProgress text

/-- Fuel-indexed decimal rendering helper; `n + 1` fuel always suffices. -/
def natDigitsGo : Nat → Nat → List Char
  | 0, _ => []
  | fuel + 1, n =>
      if n < 10 then [Nat.digitChar n]
      else natDigitsGo fuel (n / 10) ++ [Nat.digitChar (n % 10)]

/-- Decimal rendering of a natural number, as produced by JavaScript
template-literal interpolation of a non-negative integer. -/
def natDigits (n : Nat) : List Char := natDigitsGo (n + 1) n

/-- JavaScript `Math.round` for the finite values that occur here:
`⌊q + 1/2⌋`. -/
def jsRound (q : ℚ) : ℤ := ⌊q + 1 / 2⌋

/-- `Math.max(0, Math.min(100, Math.round(percent)))` from `send`. -/
def clampRound (q : ℚ) : ℕ := (max 0 (min 100 (jsRound q))).toNat

/-- The `send` closure of `startOscProgress`: renders one OSC 9;4 frame.
`percent = none` renders an empty percent field (two adjacent
separators); a present percent is rounded and clamped to `[0, 100]`. -/
def sendFrame (st : Nat) (percent : Option ℚ) (label term : List Char) : List Char :=
  match percent with
  | none => oscPre ++ natDigits st ++ [';', ';'] ++ label ++ term
  | some p => oscPre ++ natDigits st ++ [';'] ++ natDigits (clampRound p) ++ [';'] ++ label ++ term

/-- `resolveTerminator`: `bel` yields BEL, anything else yields ST. -/
def resolveTerminator : Option OscTerminatorKind → List Char
  | some .bel => oscBEL
  | _ => oscST

/-- The ramp target: `Math.max(targetMs, 1_000)`. -/
def rampTarget (targetMs : Nat) : Nat := max targetMs 1000

/-- The percent value computed by a `startOscProgress` interval tick after
`elapsed` milliseconds: `Math.min(99, (elapsed / target) * 100)`. -/
def tickPercentQ (targetMs elapsed : Nat) : ℚ :=
  min 99 ((elapsed : ℚ) / (rampTarget targetMs : ℚ) * 100)

/-- The frame written by a determinate-mode interval tick. -/
def detTickWrite (st targetMs elapsed : Nat) (label term : List Char) : List Char :=
  sendFrame st (some (tickPercentQ targetMs elapsed)) label term

/-- All frames written by a supported determinate `startOscProgress`
session before `stop` is called: the immediate `send(state, 0)` followed
by one tick write per elapsed timestamp at which the interval fired. -/
def detEmitterWrites (st targetMs : Nat) (label term : List Char)
    (ticks : List Nat) : List (List Char) :=
  sendFrame st (some 0) label term ::
    ticks.map (fun e => detTickWrite st targetMs e label term)

/-- Collects the frames written by `calls` successive invocations of a
stop closure modelled as a state transformer. -/
def iterWrites {σ : Type} (f : σ → σ × List (List Char)) : Nat → σ → List (List Char)
  | 0, _ => []
  | n + 1, s => (f s).2 ++ iterWrites f n (f s).1

/-- The determinate-mode stop closure: guarded by the captured `stopped`
flag, it emits `send(0, 0)` on the first call only. -/
def detStopStep (label term : List Char) (stopped : Bool) : Bool × List (List Char) :=
  if stopped then (stopped, [])
  else (true, [sendFrame 0 (some 0) label term])

/-- Frames written by calling the determinate stop closure `calls` times. -/
def detStopWrites (label term : List Char) (calls : Nat) : List (List Char) :=
  iterWrites (detStopStep label term) calls false

/-- The indeterminate-mode stop closure: it has no `stopped` guard and
emits `send(0, 0)` on every call. -/
def indetStopStep (label term : List Char) (u : Unit) : Unit × List (List Char) :=
  (u, [sendFrame 0 (some 0) label term])

/-- Frames written by calling the indeterminate stop closure `calls`
times. -/
def indetStopWrites (label term : List Char) (calls : Nat) : List (List Char) :=
  iterWrites (indetStopStep label term) calls ()

/-- A text segment that cannot interfere with sequence scanning: it
contains no ESC, BEL or C1-ST character (and hence no introducer and no
terminator). -/
def plainSeg (s : List Char) : Prop :=
  escChar ∉ s ∧ belChar ∉ s ∧ c1Char ∉ s

/-- The first character of each terminator pattern. -/
def termHead : OscTerminatorKind → Char
  | .st => escChar
  | .bel => belChar
  | .c1st => c1Char

/-- The decimal digit characters. -/
def digitChars : List Char := ['0', '1', '2', '3', '4', '5', '6', '7', '8', '9']

/-- The payload rendered between the introducer and the terminator by the
`send` closure. -/
def frameBody (st : Nat) (percent : Option ℚ) (label : List Char) : List Char :=
  match percent with
  | none => natDigits st ++ [';', ';'] ++ label
  | some p => natDigits st ++ [';'] ++ natDigits (clampRound p) ++ [';'] ++ label

/-- One well-terminated frame (body and terminator kind) together with the
plain text that follows it. -/
structure FrameSeg where
  body : List Char
  kind : OscTerminatorKind
  trail : List Char

/-- A frame segment whose body and following text are plain. -/
def goodSeg (f : FrameSeg) : Prop := plainSeg f.body ∧ plainSeg f.trail

instance instDecidablePlainSeg (s : List Char) : Decidable (plainSeg s) :=
  inferInstanceAs (Decidable (escChar ∉ s ∧ belChar ∉ s ∧ c1Char ∉ s))

instance instDecidableGoodSeg (f : FrameSeg) : Decidable (goodSeg f) :=
  inferInstanceAs (Decidable (plainSeg f.body ∧ plainSeg f.trail))

/-- Concatenates frames and surrounding text:
`frame₁ trail₁ frame₂ trail₂ …`. -/
def glueSegs : List FrameSeg → List Char
  | [] => []
  | f :: rest => oscPre ++ f.body ++ termPat f.kind ++ f.trail ++ glueSegs rest

/-- The surrounding text alone, in order. -/
def trailsOf : List FrameSeg → List Char
  | [] => []
  | f :: rest => f.trail ++ trailsOf rest

/-- Demo plain leading text for C3. -/
def c3Pre : List Char := ['p', 'r', 'e']

/-- First demo frame for C3: ST-terminated, followed by plain text. -/
def c3Seg1 : FrameSeg := ⟨['1', ';', '5', ';', 'X'], .st, ['m', 'i', 'd']⟩

/-- Second demo frame for C3: BEL-terminated, followed by plain text. -/
def c3Seg2 : FrameSeg := ⟨['2', ';', ';', 'Y'], .bel, ['p', 'o', 's', 't']⟩

/-- Demo terminator-free tail for the unterminated part of C3. -/
def c3Tail : List Char := ['z']

/-- Demo text for C6: an unterminated introducer directly before an
encoded frame; the scanner's match for the dangling introducer swallows
the frame's terminator. -/
def c6Bad : List Char := oscPre ++ ['1', ';', ';', 'x']

/-- Demo encoded frame for C6: state 3, no percent, sanitized label,
ST terminator. -/
def c6Enc : List Char := sendFrame 3 none ['l'] (termPat .st)

/-- Demo text for C4: one frame whose payload is followed first by BEL and
then by ST, so both terminator kinds are present. -/
def c4Text : List Char :=
  'a' :: (oscPre ++ ['1', ';', '5', '0', ';', 'X'] ++ oscBEL ++ oscST ++ ['b'])

/-- The raw match expected inside `c4Text`: it ends at the BEL, the
earlier-ending terminator. -/
def c4Raw : List Char := oscPre ++ ['1', ';', '5', '0', ';', 'X'] ++ oscBEL

/-- Demo text for C4: a prefix occurrence with no terminator anywhere
after it. -/
def c4Un : List Char := oscPre ++ ['1', ';']

theorem idxOf?_at_head {pat t : List Char} (h : pat <+: t) : idxOf? pat t = some 0 := by
  cases t with
  | nil =>
      have : pat = [] := List.prefix_nil.mp h
      simp [idxOf?, this]
  | cons c rest =>
      have hb : pat.isPrefixOf (c :: rest) = true := List.isPrefixOf_iff_prefix.mpr h
      simp [idxOf?, hb]

theorem idxOf?_append {pat : List Char} {c0 : Char} (hhead : pat.head? = some c0)
    (s t : List Char) (hs : c0 ∉ s) :
    idxOf? pat (s ++ t) = (idxOf? pat t).map (· + s.length) := by
  induction s with
  | nil => cases h : idxOf? pat t <;> simp [h]
  | cons a s ih =>
      have hnp : ¬ pat <+: (a :: (s ++ t)) := by
        intro hpre
        cases pat with
        | nil => simp at hhead
        | cons p ps =>
            have hp : p = c0 := by simpa using hhead
            have : p = a := (List.cons_prefix_cons.mp hpre).1
            exact hs (by simp [← this, hp])
      have hs' : c0 ∉ s := fun hm => hs (List.mem_cons_of_mem a hm)
      simp only [List.cons_append, idxOf?, List.isPrefixOf_iff_prefix, List.append_eq]
      rw [if_neg hnp, ih hs']
      cases idxOf? pat t <;> simp [Nat.add_assoc]

theorem idxOf?_none_of_head {pat s : List Char} {c0 : Char} (hhead : pat.head? = some c0)
    (hs : c0 ∉ s) : idxOf? pat s = none := by
  have h := idxOf?_append hhead s [] hs
  have hne : pat.isEmpty = false := by cases pat <;> simp_all
  simpa [idxOf?, hne] using h

theorem idxOf?_bounds {pat s : List Char} {i : Nat} (h : idxOf? pat s = some i) :
    pat <+: s.drop i ∧ i + pat.length ≤ s.length := by
  induction s generalizing i with
  | nil =>
      by_cases hp : pat.isEmpty
      · have : pat = [] := by simpa [List.isEmpty_iff] using hp
        simp [idxOf?, hp] at h
        simp [this, ← h]
      · simp [idxOf?, hp] at h
  | cons c rest ih =>
      by_cases hp : pat.isPrefixOf (c :: rest)
      · simp [idxOf?, hp] at h
        have hpre := List.isPrefixOf_iff_prefix.mp hp
        subst h
        exact ⟨by simpa using hpre, by simpa using hpre.length_le⟩
      · simp [idxOf?, hp] at h
        obtain ⟨j, hj, rfl⟩ := h
        obtain ⟨h1, h2⟩ := ih hj
        refine ⟨by simpa using h1, by simp; omega⟩

theorem infix_of_idxOf? {pat s : List Char} {i : Nat} (h : idxOf? pat s = some i) :
    pat <:+: s :=
  List.infix_iff_prefix_suffix.mpr ⟨s.drop i, (idxOf?_bounds h).1, List.drop_suffix i s⟩

theorem idxOf?_eq_none_of_not_infix {pat s : List Char} (h : ¬ pat <:+: s) :
    idxOf? pat s = none := by
  cases hi : idxOf? pat s with
  | none => rfl
  | some i => exact absurd (infix_of_idxOf? hi) h

theorem mem_of_mem_trimL {c : Char} {l : List Char} (h : c ∈ trimL l) : c ∈ l := by
  unfold trimL at h
  rw [List.mem_reverse] at h
  have h2 := (List.dropWhile_sublist isJsWhitespace).mem h
  rw [List.mem_reverse] at h2
  exact (List.dropWhile_sublist isJsWhitespace).mem h2

theorem sanitizeLabel_mem {c : Char} {l : List Char} (h : c ∈ sanitizeLabel l) :
    c ≠ escChar ∧ c ≠ belChar ∧ c ≠ c1Char ∧ c ≠ ']' := by
  unfold sanitizeLabel at h
  have h1 := mem_of_mem_trimL h
  simp only [List.mem_filter, bne_iff_ne, ne_eq, decide_eq_true_eq] at h1
  tauto

theorem removeST_eq_self {l : List Char} (h : escChar ∉ l) : removeST l = l := by
  induction l using removeST.induct with
  | case1 => rfl
  | case2 c => rfl
  | case3 a b rest hab ih =>
      exact absurd (by simp [hab.1]) h
  | case4 a b rest hab ih =>
      have : escChar ∉ b :: rest := fun hm => h (List.mem_cons_of_mem a hm)
      simp [removeST, hab, ih this]

theorem dropWhile_idem (p : Char → Bool) (l : List Char) :
    (l.dropWhile p).dropWhile p = l.dropWhile p := by
  induction l with
  | nil => rfl
  | cons a l ih =>
      by_cases hp : p a
      · simp [List.dropWhile_cons, hp, ih]
      · simp [List.dropWhile_cons, hp]

theorem dropWhile_head?_false {p : Char → Bool} {l : List Char} {c : Char}
    (h : (l.dropWhile p).head? = some c) : p c = false := by
  induction l with
  | nil => simp [List.dropWhile] at h
  | cons a l ih =>
      by_cases hp : p a
      · rw [List.dropWhile_cons_of_pos hp] at h
        exact ih h
      · rw [List.dropWhile_cons_of_neg (by simp [hp])] at h
        simp at h
        subst h
        simpa using hp

theorem trimL_eq_reverse (l : List Char) :
    trimL l = ((l.dropWhile isJsWhitespace).reverse.dropWhile isJsWhitespace).reverse := rfl

theorem trimL_idem (l : List Char) : trimL (trimL l) = trimL l := by
  rcases hr : trimL l with _ | ⟨x, xs⟩
  · rfl
  · have hr' : ((l.dropWhile isJsWhitespace).reverse.dropWhile isJsWhitespace).reverse = x :: xs := by
      rw [← trimL_eq_reverse, hr]
    have h1 : (l.dropWhile isJsWhitespace).reverse.takeWhile isJsWhitespace ++
        (l.dropWhile isJsWhitespace).reverse.dropWhile isJsWhitespace =
        (l.dropWhile isJsWhitespace).reverse := List.takeWhile_append_dropWhile _ _
    have hm : l.dropWhile isJsWhitespace =
        (x :: xs) ++ ((l.dropWhile isJsWhitespace).reverse.takeWhile isJsWhitespace).reverse := by
      calc l.dropWhile isJsWhitespace
          = ((l.dropWhile isJsWhitespace).reverse).reverse := (List.reverse_reverse _).symm
        _ = ((l.dropWhile isJsWhitespace).reverse.takeWhile isJsWhitespace ++
              (l.dropWhile isJsWhitespace).reverse.dropWhile isJsWhitespace).reverse := by rw [h1]
        _ = ((l.dropWhile isJsWhitespace).reverse.dropWhile isJsWhitespace).reverse ++
              ((l.dropWhile isJsWhitespace).reverse.takeWhile isJsWhitespace).reverse := by
              rw [List.reverse_append]
        _ = (x :: xs) ++ ((l.dropWhile isJsWhitespace).reverse.takeWhile isJsWhitespace).reverse := by
              rw [hr']
    have hpx : isJsWhitespace x = false :=
      dropWhile_head?_false (show (l.dropWhile isJsWhitespace).head? = some x by rw [hm]; rfl)
    have hrrev : (x :: xs).reverse = (l.dropWhile isJsWhitespace).reverse.dropWhile isJsWhitespace := by
      rw [← hr', List.reverse_reverse]
    rw [trimL_eq_reverse]
    rw [List.dropWhile_cons_of_neg (by simp [hpx])]
    rw [hrrev, dropWhile_idem]
    exact hr'

theorem sanitizeLabel_eq_trimL (l : List Char) :
    sanitizeLabel l = trimL (((((removeST l).filter (fun c => c != escChar)).filter
      (fun c => c != belChar)).filter (fun c => c != c1Char)).filter (fun c => c != ']')) := rfl

theorem sanitizeLabel_idem (l : List Char) :
    sanitizeLabel (sanitizeLabel l) = sanitizeLabel l := by
  have h1 : removeST (sanitizeLabel l) = sanitizeLabel l :=
    removeST_eq_self (fun hm => (sanitizeLabel_mem hm).1 rfl)
  have h2 : (sanitizeLabel l).filter (fun c => c != escChar) = sanitizeLabel l :=
    List.filter_eq_self.mpr (fun a ha => by simpa using (sanitizeLabel_mem ha).1)
  have h3 : (sanitizeLabel l).filter (fun c => c != belChar) = sanitizeLabel l :=
    List.filter_eq_self.mpr (fun a ha => by simpa using (sanitizeLabel_mem ha).2.1)
  have h4 : (sanitizeLabel l).filter (fun c => c != c1Char) = sanitizeLabel l :=
    List.filter_eq_self.mpr (fun a ha => by simpa using (sanitizeLabel_mem ha).2.2.1)
  have h5 : (sanitizeLabel l).filter (fun c => c != ']') = sanitizeLabel l :=
    List.filter_eq_self.mpr (fun a ha => by simpa using (sanitizeLabel_mem ha).2.2.2)
  conv_lhs => rw [sanitizeLabel_eq_trimL, h1, h2, h3, h4, h5]
  conv_lhs => rw [sanitizeLabel_eq_trimL l]
  rw [trimL_idem]
  exact (sanitizeLabel_eq_trimL l).symm

/-- C7: the sanitized label contains no ST sequence, no ESC, BEL, C1-ST or
`]` character, and `sanitizeLabel` is idempotent. -/
theorem c7_sanitize_safe_and_idem (L : List Char) :
    (¬ oscST <:+: sanitizeLabel L) ∧ escChar ∉ sanitizeLabel L ∧
    belChar ∉ sanitizeLabel L ∧ c1Char ∉ sanitizeLabel L ∧ ']' ∉ sanitizeLabel L ∧
    sanitizeLabel (sanitizeLabel L) = sanitizeLabel L := by
  refine ⟨?_, ?_, ?_, ?_, ?_, sanitizeLabel_idem L⟩
  · intro hinf
    exact (sanitizeLabel_mem (hinf.subset (by simp [oscST]))).1 rfl
  · intro hm
    exact (sanitizeLabel_mem hm).1 rfl
  · intro hm
    exact (sanitizeLabel_mem hm).2.1 rfl
  · intro hm
    exact (sanitizeLabel_mem hm).2.2.1 rfl
  · intro hm
    exact (sanitizeLabel_mem hm).2.2.2 rfl

/-- Environment mapping with nothing set. -/
def emptyEnv : String → Option String := fun _ => none

/-- Environment mapping with `WT_SESSION` present but empty and every other
variable unset. -/
def wtEmptyEnv : String → Option String :=
  fun n => if n = wtSessionKey then some "" else none

/-- Environment mapping with `WT_SESSION` set to `"x"` and every other
variable unset. -/
def wtSetEnv : String → Option String :=
  fun n => if n = wtSessionKey then some "x" else none

/-- C2 counterexample: with `WT_SESSION` present but equal to the empty
string, a TTY, no option overrides and no `TERM_PROGRAM`,
`supportsOscProgress` returns `false`, not `true` as claimed: the source
tests JavaScript truthiness of `env.WT_SESSION`, which the empty string
fails. -/
theorem c2_counterexample :
    wtEmptyEnv wtSessionKey = some "" ∧
    supportsOscProgress wtEmptyEnv true noOverrides = false :=
  ⟨rfl, by decide⟩

/-- C2 (amended): when `WT_SESSION` is present with any non-empty value,
`isTty` is true and no overrides are set, `supportsOscProgress` returns
`true`. -/
theorem c2_wt_session_nonempty (env : String → Option String) (v : String)
    (hwt : env wtSessionKey = some v) (hv : v ≠ "") :
    supportsOscProgress env true noOverrides = true := by
  have ht : envTruthy env wtSessionKey = true := by
    simp [envTruthy, hwt, hv]
  simp [supportsOscProgress, noOverrides, envFlagSet, ht]

/-- Witness for C2 at the concrete environment `WT_SESSION = "x"`. -/
theorem c2_witness :
    wtSetEnv wtSessionKey = some "x" ∧ ("x" : String) ≠ "" ∧
    supportsOscProgress wtSetEnv true noOverrides = true :=
  ⟨rfl, by decide, c2_wt_session_nonempty wtSetEnv "x" rfl (by decide)⟩

/-- C9: `isTty = false` forces `false` for every environment and options
record, and the overrides are consulted in source order: `disabled`,
`force`, `disableEnvVar = "1"`, `forceEnvVar = "1"`, then the built-in
allow-list; in particular `disabled` wins over `force`. -/
theorem c9_supports_gate_order :
    (∀ env options, supportsOscProgress env false options = false) ∧
    (∀ env options, options.disabled = true →
      supportsOscProgress env true options = false) ∧
    (∀ env options, options.disabled = false → options.force = true →
      supportsOscProgress env true options = true) ∧
    (∀ env options, options.disabled = false → options.force = false →
      envFlagSet env options.disableEnvVar = true →
      supportsOscProgress env true options = false) ∧
    (∀ env options, options.disabled = false → options.force = false →
      envFlagSet env options.disableEnvVar = false →
      envFlagSet env options.forceEnvVar = true →
      supportsOscProgress env true options = true) ∧
    (∀ env options, options.disabled = false → options.force = false →
      envFlagSet env options.disableEnvVar = false →
      envFlagSet env options.forceEnvVar = false →
      supportsOscProgress env true options =
        (containsSeq ghosttyChars (termProgramLower env) ||
         containsSeq weztermChars (termProgramLower env) ||
         envTruthy env wtSessionKey)) := by
  refine ⟨fun env o => by simp [supportsOscProgress],
    fun env o h => by simp [supportsOscProgress, h],
    fun env o h1 h2 => by simp [supportsOscProgress, h1, h2],
    fun env o h1 h2 h3 => by simp [supportsOscProgress, h1, h2, h3],
    fun env o h1 h2 h3 h4 => by simp [supportsOscProgress, h1, h2, h3, h4],
    fun env o h1 h2 h3 h4 => by
      simp only [supportsOscProgress, h1, h2, h3, h4, Bool.not_true,
        Bool.false_eq_true, if_false]
      split_ifs <;> simp_all⟩

/-- Witness for C9 at concrete environments and option records, including
the `disabled`-and-`force`-both-set case. -/
theorem c9_witness :
    supportsOscProgress emptyEnv false ⟨true, false, none, none⟩ = false ∧
    supportsOscProgress emptyEnv true ⟨true, true, none, none⟩ = false ∧
    supportsOscProgress emptyEnv true ⟨true, false, none, none⟩ = true ∧
    supportsOscProgress wtSetEnv true noOverrides = true :=
  ⟨c9_supports_gate_order.1 emptyEnv ⟨true, false, none, none⟩,
   c9_supports_gate_order.2.1 emptyEnv ⟨true, true, none, none⟩ rfl,
   c9_supports_gate_order.2.2.1 emptyEnv ⟨true, false, none, none⟩ rfl rfl,
   by
    rw [c9_supports_gate_order.2.2.2.2.2 wtSetEnv noOverrides rfl rfl (by decide) (by decide)]
    decide⟩

theorem jsRound_tick_nonneg (targetMs elapsed : Nat) :
    0 ≤ jsRound (tickPercentQ targetMs elapsed) := by
  have hx : (0 : ℚ) ≤ (elapsed : ℚ) / (rampTarget targetMs : ℚ) * 100 := by positivity
  have hq : (0 : ℚ) ≤ tickPercentQ targetMs elapsed := by
    unfold tickPercentQ
    positivity
  have : (0 : ℤ) = ⌊(0 : ℚ) + 1 / 2⌋ := by norm_num
  rw [jsRound, this]
  exact Int.floor_le_floor (by linarith)

theorem jsRound_tick_le (targetMs elapsed : Nat) :
    jsRound (tickPercentQ targetMs elapsed) ≤ 99 := by
  have hq : tickPercentQ targetMs elapsed ≤ 99 := min_le_left _ _
  have h99 : (⌊(99 : ℚ) + 1 / 2⌋ : ℤ) = 99 := by norm_num
  rw [jsRound, ← h99]
  exact Int.floor_le_floor (by linarith)

theorem clampRound_tick (targetMs elapsed : Nat) :
    clampRound (tickPercentQ targetMs elapsed)
      = (jsRound (tickPercentQ targetMs elapsed)).toNat ∧
    clampRound (tickPercentQ targetMs elapsed) ≤ 99 := by
  have h0 := jsRound_tick_nonneg targetMs elapsed
  have h99 := jsRound_tick_le targetMs elapsed
  unfold clampRound
  constructor
  · congr 1
    omega
  · omega

theorem iterWrites_detStop_true (label term : List Char) (n : Nat) :
    iterWrites (detStopStep label term) n true = [] := by
  induction n with
  | zero => rfl
  | succ n ih => simp [iterWrites, detStopStep, ih]

theorem detStop_once (label term : List Char) (n : Nat) (h : 1 ≤ n) :
    detStopWrites label term n = [sendFrame 0 (some 0) label term] := by
  obtain ⟨m, rfl⟩ := Nat.exists_eq_succ_of_ne_zero (show n ≠ 0 by omega)
  simp [detStopWrites, iterWrites, detStopStep, iterWrites_detStop_true]

theorem indetStop_replicate (label term : List Char) (n : Nat) :
    indetStopWrites label term n
      = List.replicate n (sendFrame 0 (some 0) label term) := by
  induction n with
  | zero => rfl
  | succ n ih =>
      simp only [indetStopWrites, iterWrites, indetStopStep, List.replicate_succ] at ih ⊢
      simp [ih]

/-- C1 (amended): for every label and terminator, in determinate mode any
number `n ≥ 1` of calls to the stop closure performs the final
state-0/percent-0 emit exactly once; in indeterminate mode, where the
closure has no `stopped` guard, every one of the `n` calls emits the
state-0/percent-0 frame. -/
theorem c1_stop_calls (label term : List Char) (n : Nat) (h : 1 ≤ n) :
    detStopWrites label term n = [sendFrame 0 (some 0) label term] ∧
    indetStopWrites label term n
      = List.replicate n (sendFrame 0 (some 0) label term) :=
  ⟨detStop_once label term n h, indetStop_replicate label term n⟩

/-- Witness for C1 at two stop calls. -/
theorem c1_witness :
    1 ≤ 2 ∧
    detStopWrites [] oscST 2 = [sendFrame 0 (some 0) [] oscST] ∧
    indetStopWrites [] oscST 2
      = List.replicate 2 (sendFrame 0 (some 0) [] oscST) :=
  ⟨by decide, (c1_stop_calls [] oscST 2 (by decide)).1,
   (c1_stop_calls [] oscST 2 (by decide)).2⟩

/-- C1 counterexample: in indeterminate mode, calling the returned stop
closure twice performs the state-0/percent-0 emit twice, not once — the
indeterminate branch of `startOscProgress` returns a closure without the
`stopped` guard. -/
theorem c1_counterexample :
    indetStopWrites [] oscST 2
      = [sendFrame 0 (some 0) [] oscST, sendFrame 0 (some 0) [] oscST] ∧
    (indetStopWrites [] oscST 2).length ≠ 1 :=
  ⟨rfl, by decide⟩

/-- C8: the ramp target is `max targetMs 1000`; every interval tick writes
the frame for percent `min(99, elapsed / target * 100)`; the emitted
percent is that value rounded, is never `100`, and the only frame a stop
call triggers is state 0 / percent 0. -/
theorem c8_ramp (targetMs elapsed st : Nat) (label term : List Char) (ticks : List Nat) :
    rampTarget targetMs = max targetMs 1000 ∧
    detTickWrite st targetMs elapsed label term
      = sendFrame st (some (min 99 ((elapsed : ℚ) / ((max targetMs 1000 : ℕ) : ℚ) * 100)))
          label term ∧
    clampRound (tickPercentQ targetMs elapsed)
      = (jsRound (min 99 ((elapsed : ℚ) / ((max targetMs 1000 : ℕ) : ℚ) * 100))).toNat ∧
    (∀ w ∈ detEmitterWrites st targetMs label term ticks,
      ∃ q, w = sendFrame st (some q) label term ∧ clampRound q ≤ 99) ∧
    (∀ calls, 1 ≤ calls →
      detStopWrites label term calls = [sendFrame 0 (some 0) label term]) := by
  refine ⟨rfl, rfl, (clampRound_tick targetMs elapsed).1, ?_,
    fun calls h => detStop_once label term calls h⟩
  intro w hw
  simp only [detEmitterWrites, List.mem_cons, List.mem_map] at hw
  rcases hw with rfl | ⟨e, _, rfl⟩
  · refine ⟨0, rfl, ?_⟩
    have : clampRound 0 = 0 := by norm_num [clampRound, jsRound]
    omega
  · exact ⟨tickPercentQ targetMs e, rfl, (clampRound_tick targetMs e).2⟩

/-- Witness for C8 at `targetMs = 2000`, a tick at 3000 ms and one stop
call. -/
theorem c8_witness :
    (detTickWrite 1 2000 3000 [] oscST ∈ detEmitterWrites 1 2000 [] oscST [3000]) ∧
    (∃ q, detTickWrite 1 2000 3000 [] oscST = sendFrame 1 (some q) [] oscST ∧
      clampRound q ≤ 99) ∧
    (1 ≤ 1) ∧ detStopWrites [] oscST 1 = [sendFrame 0 (some 0) [] oscST] := by
  have hmem : detTickWrite 1 2000 3000 [] oscST ∈ detEmitterWrites 1 2000 [] oscST [3000] :=
    show detTickWrite 1 2000 3000 [] oscST ∈
        sendFrame 1 (some 0) [] oscST :: [detTickWrite 1 2000 3000 [] oscST] from
      List.mem_cons_of_mem _ (List.mem_singleton_self _)
  exact ⟨hmem, (c8_ramp 2000 3000 1 [] oscST [3000]).2.2.2.1 _ hmem, by decide,
    (c8_ramp 2000 3000 1 [] oscST [3000]).2.2.2.2 1 (by decide)⟩

/-- Modelled from the spec: the stateful controller
(`createOscProgressController`) is exercised by the repository's tests but
its implementation is not under `src/`; this structure records the
last-emitted bookkeeping of spec section 3 (`lastEmitted{label, percent,
state, timestamp, hasEmittedAtLeastOnce}`) that drives the emission gate. -/
structure ControllerEmitted where
  hasEmitted : Bool
  lastState : Nat
  lastPercent : Option Nat
  lastLabel : List Char
  lastTime : Nat
deriving DecidableEq

/-- Modelled from the spec: the fixed throttle interval of 150 time-units. -/
def throttleMs : Nat := 150

/-- Modelled from the spec: the emission gate of section 4.6.1 — a
non-forced emission proceeds if it is the first emission ever, or the
state differs from the last emitted state, or the (already sanitized)
label differs from the last emitted label, or the percent differs from
the last emitted percent and the throttle interval has elapsed since the
last emission. -/
def gateAllows (es : ControllerEmitted) (now st : Nat) (percent : Option Nat)
    (label : List Char) : Bool :=
  !es.hasEmitted || st != es.lastState || label != es.lastLabel ||
    (percent != es.lastPercent && decide (es.lastTime + throttleMs ≤ now))

/-- Modelled from the spec: `setPercent` clamps and rounds the percent,
sanitizes the label, and emits state 1 subject to the gate; the
last-emitted bookkeeping is updated only when a write happens. -/
def ctrlSetPercent (es : ControllerEmitted) (now : Nat) (labelRaw : List Char)
    (percent : ℚ) : ControllerEmitted × Bool :=
  let label := sanitizeLabel labelRaw
  let pc := clampRound percent
  if gateAllows es now 1 (some pc) label then
    (⟨true, 1, some pc, label, now⟩, true)
  else (es, false)

/-- Modelled from the spec: runs a list of `(time, label, percent)` calls
to `setPercent` and counts the frames written. -/
def runSetPercents : ControllerEmitted → List (Nat × List Char × ℚ) → Nat
  | _, [] => 0
  | es, (t, l, p) :: rest =>
      let step := ctrlSetPercent es t l p
      (if step.2 then 1 else 0) + runSetPercents step.1 rest

/-- Modelled from the spec: the controller state before any emission. -/
def ctrlInit : ControllerEmitted := ⟨false, 0, none, [], 0⟩

/-- A concrete label for the throttling scenario. -/
def dlLabel : List Char := ['D', 'o', 'w', 'n']

theorem gateAllows_iff (es : ControllerEmitted) (now st : Nat)
    (percent : Option Nat) (label : List Char) :
    gateAllows es now st percent label = true ↔
      (es.hasEmitted = false ∨ st ≠ es.lastState ∨ label ≠ es.lastLabel ∨
       (percent ≠ es.lastPercent ∧ es.lastTime + 150 ≤ now)) := by
  simp [gateAllows, throttleMs]
  tauto

theorem throttle_three_calls :
    runSetPercents ctrlInit [(0, dlLabel, 1), (0, dlLabel, 2), (0, dlLabel, 3)] = 1 := by
  have h1 : clampRound 1 = 1 := by norm_num [clampRound, jsRound]; try decide
  have h2 : clampRound 2 = 2 := by norm_num [clampRound, jsRound]; try decide
  have h3 : clampRound 3 = 3 := by norm_num [clampRound, jsRound]; try decide
  simp only [runSetPercents, ctrlSetPercent, h1, h2, h3]
  decide

theorem throttle_fourth_call :
    runSetPercents ctrlInit
      [(0, dlLabel, 1), (0, dlLabel, 2), (0, dlLabel, 3), (150, dlLabel, 4)] = 2 := by
  have h1 : clampRound 1 = 1 := by norm_num [clampRound, jsRound]; try decide
  have h2 : clampRound 2 = 2 := by norm_num [clampRound, jsRound]; try decide
  have h3 : clampRound 3 = 3 := by norm_num [clampRound, jsRound]; try decide
  have h4 : clampRound 4 = 4 := by norm_num [clampRound, jsRound]; try decide
  simp only [runSetPercents, ctrlSetPercent, h1, h2, h3, h4]
  decide

/-- C5 (spec-modelled): the controller emission gate fires exactly when
this is the first emission ever, or the state differs from the last
emitted one, or the sanitized label differs, or the percent differs and
at least 150 time-units have elapsed; three immediate `setPercent` calls
with increasing percents and the same label produce exactly one write and
a fourth call after the throttle interval produces a second one. -/
theorem c5_emission_gate :
    (∀ es now st percent label,
      gateAllows es now st percent label = true ↔
        (es.hasEmitted = false ∨ st ≠ es.lastState ∨ label ≠ es.lastLabel ∨
         (percent ≠ es.lastPercent ∧ es.lastTime + 150 ≤ now))) ∧
    runSetPercents ctrlInit [(0, dlLabel, 1), (0, dlLabel, 2), (0, dlLabel, 3)] = 1 ∧
    runSetPercents ctrlInit
      [(0, dlLabel, 1), (0, dlLabel, 2), (0, dlLabel, 3), (150, dlLabel, 4)] = 2 :=
  ⟨gateAllows_iff, throttle_three_calls, throttle_fourth_call⟩

theorem idxFrom_some {pat text : List Char} {from_ i : Nat} (hpat : pat ≠ [])
    (h : idxFrom pat text from_ = some i) :
    from_ ≤ i ∧ pat <+: text.drop i ∧ i + pat.length ≤ text.length := by
  unfold idxFrom at h
  rw [Option.map_eq_some'] at h
  obtain ⟨j, hj, rfl⟩ := h
  obtain ⟨h1, h2⟩ := idxOf?_bounds hj
  rw [List.drop_drop, Nat.add_comm from_ j] at h1
  have hple := h1.length_le
  have hdlen : (text.drop (j + from_)).length = text.length - (j + from_) :=
    List.length_drop _ _
  have hppos : 0 < pat.length := List.length_pos.mpr hpat
  rw [hdlen] at hple
  exact ⟨by omega, h1, by omega⟩

theorem termPat_ne_nil (k : OscTerminatorKind) : termPat k ≠ [] := by
  cases k <;> simp [termPat, oscST, oscBEL, oscC1]

theorem termEnd?_some {k : OscTerminatorKind} {text : List Char} {after e : Nat}
    (h : termEnd? k text after = some e) : after < e ∧ e ≤ text.length := by
  unfold termEnd? at h
  rw [Option.map_eq_some'] at h
  obtain ⟨i, hi, rfl⟩ := h
  obtain ⟨h1, _, h3⟩ := idxFrom_some (termPat_ne_nil k) hi
  have : 0 < (termPat k).length := List.length_pos.mpr (termPat_ne_nil k)
  omega

theorem pickMin_cons_none {a : Nat × OscTerminatorKind}
    {l : List (Nat × OscTerminatorKind)} (hp : pickMin l = none) :
    pickMin (a :: l) = some a := by
  simp [pickMin, hp]

theorem pickMin_cons_some {a d : Nat × OscTerminatorKind}
    {l : List (Nat × OscTerminatorKind)} (hp : pickMin l = some d) :
    pickMin (a :: l) = some (if d.1 < a.1 then d else a) := by
  simp [pickMin, hp]

theorem pickMin_mem {l : List (Nat × OscTerminatorKind)} {c : Nat × OscTerminatorKind}
    (h : pickMin l = some c) : c ∈ l := by
  induction l generalizing c with
  | nil => simp [pickMin] at h
  | cons a l ih =>
      cases hp : pickMin l with
      | none =>
          rw [pickMin_cons_none hp, Option.some.injEq] at h
          exact h ▸ List.mem_cons_self a l
      | some d =>
          rw [pickMin_cons_some hp, Option.some.injEq] at h
          by_cases hd : d.1 < a.1
          · rw [if_pos hd] at h
            exact List.mem_cons_of_mem a (h ▸ ih hp)
          · rw [if_neg hd] at h
            exact h ▸ List.mem_cons_self a l

theorem pickMin_eq_none_iff {l : List (Nat × OscTerminatorKind)} :
    pickMin l = none ↔ l = [] := by
  cases l with
  | nil => simp [pickMin]
  | cons a l =>
      simp only [pickMin]
      constructor
      · intro h
        cases pickMin l <;> simp at h
      · intro h
        simp at h

theorem pickMin_le {l : List (Nat × OscTerminatorKind)} {c : Nat × OscTerminatorKind}
    (h : pickMin l = some c) : ∀ x ∈ l, c.1 ≤ x.1 := by
  induction l generalizing c with
  | nil => simp [pickMin] at h
  | cons a l ih =>
      intro x hx
      rcases List.mem_cons.mp hx with rfl | hx
      · cases hp : pickMin l with
        | none =>
            rw [pickMin_cons_none hp, Option.some.injEq] at h
            cases h
            omega
        | some d =>
            rw [pickMin_cons_some hp, Option.some.injEq] at h
            by_cases hd : d.1 < x.1
            · rw [if_pos hd] at h
              cases h
              omega
            · rw [if_neg hd] at h
              cases h
              omega
      · cases hp : pickMin l with
        | none =>
            rw [pickMin_eq_none_iff.mp hp] at hx
            simp at hx
        | some d =>
            rw [pickMin_cons_some hp, Option.some.injEq] at h
            have hd := ih hp x hx
            by_cases hlt : d.1 < a.1
            · rw [if_pos hlt] at h
              cases h
              omega
            · rw [if_neg hlt] at h
              cases h
              omega

theorem pickMin_eq_some_of {l : List (Nat × OscTerminatorKind)}
    {c : Nat × OscTerminatorKind} (hmem : c ∈ l)
    (hlt : ∀ x ∈ l, x ≠ c → c.1 < x.1) : pickMin l = some c := by
  induction l with
  | nil => simp at hmem
  | cons a l ih =>
      by_cases hac : a = c
      · subst hac
        cases hp : pickMin l with
        | none => exact pickMin_cons_none hp
        | some d =>
            rw [pickMin_cons_some hp]
            by_cases hdc : d = a
            · subst hdc
              simp
            · have : a.1 < d.1 :=
                hlt d (List.mem_cons_of_mem a (pickMin_mem hp)) hdc
              rw [if_neg (by omega)]
      · have hcl : c ∈ l := by
          rcases List.mem_cons.mp hmem with rfl | hm
          · exact absurd rfl hac
          · exact hm
        have hp : pickMin l = some c :=
          ih hcl (fun x hx hxc => hlt x (List.mem_cons_of_mem a hx) hxc)
        rw [pickMin_cons_some hp]
        have : c.1 < a.1 := hlt a (List.mem_cons_self a l) (fun hh => hac hh)
        rw [if_pos this]

theorem mem_candidatesAt {text : List Char} {after e : Nat} {k : OscTerminatorKind} :
    (e, k) ∈ candidatesAt text after ↔ termEnd? k text after = some e := by
  cases k <;>
    cases hst : termEnd? .st text after <;>
      cases hbel : termEnd? .bel text after <;>
        cases hc1 : termEnd? .c1st text after <;>
          simp [candidatesAt, hst, hbel, hc1, eq_comm]

theorem bestCandidate_spec {text : List Char} {after e : Nat} {k : OscTerminatorKind}
    (h : bestCandidate text after = some (e, k)) :
    termEnd? k text after = some e ∧
      ∀ k' e', termEnd? k' text after = some e' → e ≤ e' := by
  refine ⟨mem_candidatesAt.mp (pickMin_mem h), fun k' e' h' => ?_⟩
  exact pickMin_le h (e', k') (mem_candidatesAt.mpr h')

theorem oscPre_ne_nil : oscPre ≠ [] := by simp [oscPre]

theorem oscPre_length : oscPre.length = 6 := rfl

theorem findGo_succ (fuel : Nat) (text : List Char) (sf : Nat) :
    findGo (fuel + 1) text sf =
      if sf < text.length then
        match idxFrom oscPre text sf with
        | none => []
        | some start =>
            match bestCandidate text (start + oscPre.length) with
            | none => findGo fuel text (start + oscPre.length)
            | some best =>
                ⟨start, best.1, (text.take best.1).drop start, best.2⟩ ::
                  findGo fuel text best.1
      else [] := rfl

theorem findGo_mem {fuel : Nat} {text : List Char} {sf : Nat} {m : OscProgressSequence}
    (h : m ∈ findGo fuel text sf) :
    sf ≤ m.start ∧ oscPre <+: text.drop m.start ∧
    bestCandidate text (m.start + oscPre.length) = some (m.endEx, m.terminator) ∧
    m.raw = (text.take m.endEx).drop m.start ∧
    m.start + oscPre.length < m.endEx := by
  induction fuel generalizing sf m with
  | zero => simp [findGo] at h
  | succ fuel ih =>
      rw [findGo_succ] at h
      by_cases hlt : sf < text.length
      · rw [if_pos hlt] at h
        cases hstart : idxFrom oscPre text sf with
        | none => rw [hstart] at h; simp at h
        | some start =>
            rw [hstart] at h
            simp only at h
            obtain ⟨hsf, hpre, hbound⟩ := idxFrom_some oscPre_ne_nil hstart
            cases hbest : bestCandidate text (start + oscPre.length) with
            | none =>
                rw [hbest] at h
                simp only at h
                obtain ⟨h1, h2, h3, h4, h5⟩ := ih h
                exact ⟨by omega, h2, h3, h4, h5⟩
            | some best =>
                rw [hbest] at h
                simp only [List.mem_cons] at h
                have hterm := (bestCandidate_spec hbest).1
                have hb := termEnd?_some hterm
                rcases h with rfl | h
                · exact ⟨hsf, hpre, hbest, rfl, hb.1⟩
                · obtain ⟨h1, h2, h3, h4, h5⟩ := ih h
                  exact ⟨by omega, h2, h3, h4, h5⟩
      · rw [if_neg hlt] at h
        simp at h

/-- C4: every match of `findOscProgressSequences` ends at the smallest
terminator end offset present at or after its payload start, regardless of
terminator kind; a prefix occurrence with no following terminator of any
kind yields no match at that start. -/
theorem c4_earliest_end_wins :
    (∀ text m, m ∈ findOscProgressSequences text →
      (∃ k, termEnd? k text (m.start + oscPre.length) = some m.endEx) ∧
      (∀ k e, termEnd? k text (m.start + oscPre.length) = some e → m.endEx ≤ e)) ∧
    (∀ text i, (∀ k, termEnd? k text (i + oscPre.length) = none) →
      (findOscProgressSequences text).filter (fun m => m.start == i) = []) := by
  constructor
  · intro text m hm
    obtain ⟨-, -, hbest, -, -⟩ := findGo_mem hm
    obtain ⟨h1, h2⟩ := bestCandidate_spec hbest
    exact ⟨⟨m.terminator, h1⟩, h2⟩
  · intro text i hnone
    rw [List.filter_eq_nil_iff]
    intro m hm
    obtain ⟨-, -, hbest, -, -⟩ := findGo_mem hm
    simp only [beq_iff_eq]
    intro hstart
    rw [hstart] at hbest
    have := (bestCandidate_spec hbest).1
    rw [hnone m.terminator] at this
    exact Option.noConfusion this

/-- Witness for C4 at a frame followed by both BEL and ST, and at an
unterminated prefix occurrence. -/
theorem c4_witness :
    ((⟨1, 14, c4Raw, .bel⟩ : OscProgressSequence) ∈ findOscProgressSequences c4Text) ∧
    (∃ k, termEnd? k c4Text ((1 : Nat) + oscPre.length) = some 14) ∧
    (∀ k e, termEnd? k c4Text ((1 : Nat) + oscPre.length) = some e → 14 ≤ e) ∧
    (findOscProgressSequences c4Un).filter (fun m => m.start == 0) = [] := by
  have hm : (⟨1, 14, c4Raw, .bel⟩ : OscProgressSequence) ∈
      findOscProgressSequences c4Text := by decide
  have h1 := c4_earliest_end_wins.1 c4Text _ hm
  exact ⟨hm, h1.1, h1.2,
    c4_earliest_end_wins.2 c4Un 0
      (fun k => match k with
        | .st => by decide
        | .bel => by decide
        | .c1st => by decide)⟩

theorem plainSeg_append {a b : List Char} (ha : plainSeg a) (hb : plainSeg b) :
    plainSeg (a ++ b) := by
  obtain ⟨h1, h2, h3⟩ := ha
  obtain ⟨g1, g2, g3⟩ := hb
  refine ⟨?_, ?_, ?_⟩ <;> simp_all

theorem termPat_head? (k : OscTerminatorKind) :
    (termPat k).head? = some (termHead k) := by
  cases k <;> rfl

theorem termHead_not_mem_plain {s : List Char} (h : plainSeg s)
    (k : OscTerminatorKind) : termHead k ∉ s := by
  obtain ⟨h1, h2, h3⟩ := h
  cases k
  · exact h1
  · exact h2
  · exact h3

theorem termHead_not_mem_termPat {k k' : OscTerminatorKind} (h : k' ≠ k) :
    termHead k' ∉ termPat k := by
  cases k <;> cases k' <;> first
    | exact absurd rfl h
    | decide

theorem oscPre_head? : oscPre.head? = some escChar := rfl

theorem idxOf?_pre_structured {A : List Char} (R : List Char) (hA : plainSeg A) :
    idxOf? oscPre (A ++ (oscPre ++ R)) = some A.length := by
  rw [idxOf?_append oscPre_head? A (oscPre ++ R) hA.1,
    idxOf?_at_head (List.prefix_append oscPre R)]
  simp

theorem drop_structured (A R : List Char) :
    (A ++ (oscPre ++ R)).drop (A.length + oscPre.length) = R := by
  rw [← List.append_assoc]
  exact List.drop_left' (by simp)

theorem termEnd?_structured_own {body : List Char} (A W : List Char)
    {k : OscTerminatorKind} (hbody : plainSeg body) :
    termEnd? k (A ++ (oscPre ++ (body ++ (termPat k ++ W))))
        (A.length + oscPre.length)
      = some (A.length + oscPre.length + body.length + (termPat k).length) := by
  unfold termEnd? idxFrom
  rw [drop_structured]
  rw [idxOf?_append (termPat_head? k) body (termPat k ++ W)
    (termHead_not_mem_plain hbody k)]
  rw [idxOf?_at_head (List.prefix_append (termPat k) W)]
  simp
  omega

theorem termEnd?_structured_other {body : List Char} (A W : List Char)
    {k k' : OscTerminatorKind} (hne : k' ≠ k)
    (hbody : plainSeg body) {e : Nat}
    (h : termEnd? k' (A ++ (oscPre ++ (body ++ (termPat k ++ W))))
        (A.length + oscPre.length) = some e) :
    A.length + oscPre.length + body.length + (termPat k).length < e := by
  unfold termEnd? idxFrom at h
  rw [drop_structured] at h
  rw [show body ++ (termPat k ++ W) = (body ++ termPat k) ++ W from
    (List.append_assoc body (termPat k) W).symm] at h
  have hnm : termHead k' ∉ body ++ termPat k := by
    rw [List.mem_append]
    rintro (hm | hm)
    · exact termHead_not_mem_plain hbody k' hm
    · exact termHead_not_mem_termPat hne hm
  rw [idxOf?_append (termPat_head? k') (body ++ termPat k) W hnm] at h
  simp only [Option.map_map, Option.map_eq_some'] at h
  obtain ⟨j, hj, rfl⟩ := h
  have hpos : 0 < (termPat k').length := List.length_pos.mpr (termPat_ne_nil k')
  simp [List.length_append]
  omega

theorem bestCandidate_structured {body : List Char} (A W : List Char)
    {k : OscTerminatorKind} (hbody : plainSeg body) :
    bestCandidate (A ++ (oscPre ++ (body ++ (termPat k ++ W))))
        (A.length + oscPre.length)
      = some (A.length + oscPre.length + body.length + (termPat k).length, k) := by
  apply pickMin_eq_some_of
  · exact mem_candidatesAt.mpr (termEnd?_structured_own A W hbody)
  · rintro ⟨e', k'⟩ hx hne
    have ht := mem_candidatesAt.mp hx
    by_cases hkk : k' = k
    · subst hkk
      rw [termEnd?_structured_own A W hbody, Option.some.injEq] at ht
      exact absurd (by rw [ht]) hne
    · exact termEnd?_structured_other A W hkk hbody ht

theorem minList_cons_none {a : Nat} {l : List Nat} (hp : minList l = none) :
    minList (a :: l) = some a := by
  simp [minList, hp]

theorem minList_cons_some {a m : Nat} {l : List Nat} (hp : minList l = some m) :
    minList (a :: l) = some (min a m) := by
  simp [minList, hp]

theorem minList_mem {l : List Nat} {m : Nat} (h : minList l = some m) : m ∈ l := by
  induction l generalizing m with
  | nil => simp [minList] at h
  | cons a l ih =>
      cases hp : minList l with
      | none =>
          rw [minList_cons_none hp, Option.some.injEq] at h
          exact h ▸ List.mem_cons_self a l
      | some m' =>
          rw [minList_cons_some hp, Option.some.injEq] at h
          rw [Nat.min_def] at h
          by_cases hle : a ≤ m'
          · rw [if_pos hle] at h
            exact h ▸ List.mem_cons_self a l
          · rw [if_neg hle] at h
            exact List.mem_cons_of_mem a (h ▸ ih hp)

theorem minList_eq_some_of {l : List Nat} {e : Nat} (hmem : e ∈ l)
    (hle : ∀ x ∈ l, e ≤ x) : minList l = some e := by
  induction l with
  | nil => simp at hmem
  | cons a l ih =>
      by_cases hel : e ∈ l
      · have hp := ih hel (fun x hx => hle x (List.mem_cons_of_mem a hx))
        rw [minList_cons_some hp]
        have : e ≤ a := hle a (List.mem_cons_self a l)
        rw [Nat.min_eq_right this]
      · have hea : e = a := by
          rcases List.mem_cons.mp hmem with h | h
          · exact h
          · exact absurd h hel
        subst hea
        cases hp : minList l with
        | none => exact minList_cons_none hp
        | some m' =>
            rw [minList_cons_some hp]
            have : e ≤ m' := hle m' (List.mem_cons_of_mem e (minList_mem hp))
            rw [Nat.min_eq_left this]

theorem minEnds_structured {body : List Char} (A W : List Char)
    {k : OscTerminatorKind} (hbody : plainSeg body) :
    minList (endsAt (A ++ (oscPre ++ (body ++ (termPat k ++ W))))
        (A.length + oscPre.length))
      = some (A.length + oscPre.length + body.length + (termPat k).length) := by
  apply minList_eq_some_of
  · unfold endsAt
    exact List.mem_map_of_mem Prod.fst
      (mem_candidatesAt.mpr (termEnd?_structured_own A W hbody))
  · intro x hx
    unfold endsAt at hx
    rw [List.mem_map] at hx
    obtain ⟨⟨e', k'⟩, hmem, rfl⟩ := hx
    have ht := mem_candidatesAt.mp hmem
    by_cases hkk : k' = k
    · subst hkk
      rw [termEnd?_structured_own A W hbody, Option.some.injEq] at ht
      omega
    · have := termEnd?_structured_other A W hkk hbody ht
      omega

theorem endsAt_unterm {A u : List Char} (hbel : belChar ∉ u) (hc1 : c1Char ∉ u)
    (hst : ¬ oscST <:+: u) :
    endsAt (A ++ (oscPre ++ u)) (A.length + oscPre.length) = [] := by
  have h1 : termEnd? .st (A ++ (oscPre ++ u)) (A.length + oscPre.length) = none := by
    unfold termEnd? idxFrom
    rw [drop_structured, show termPat OscTerminatorKind.st = oscST from rfl,
      idxOf?_eq_none_of_not_infix hst]
    rfl
  have h2 : termEnd? .bel (A ++ (oscPre ++ u)) (A.length + oscPre.length) = none := by
    unfold termEnd? idxFrom
    rw [drop_structured, idxOf?_none_of_head (termPat_head? .bel) hbel]
    rfl
  have h3 : termEnd? .c1st (A ++ (oscPre ++ u)) (A.length + oscPre.length) = none := by
    unfold termEnd? idxFrom
    rw [drop_structured, idxOf?_none_of_head (termPat_head? .c1st) hc1]
    rfl
  simp [endsAt, candidatesAt, h1, h2, h3]

theorem stripStep?_none_of_plain {s : List Char} (h : plainSeg s) :
    stripStep? s = none := by
  unfold stripStep?
  rw [idxOf?_none_of_head oscPre_head? h.1]

theorem stripStep?_frame {body : List Char} (A W : List Char)
    {k : OscTerminatorKind} (hA : plainSeg A) (hbody : plainSeg body) :
    stripStep? (A ++ (oscPre ++ (body ++ (termPat k ++ W)))) = some (A ++ W) := by
  unfold stripStep?
  rw [idxOf?_pre_structured _ hA]
  simp only
  rw [minEnds_structured A W hbody]
  simp only [Option.some.injEq]
  have htake : (A ++ (oscPre ++ (body ++ (termPat k ++ W)))).take A.length = A := by
    rw [List.take_append_of_le_length (Nat.le_refl _)]
    simp
  have hdrop : (A ++ (oscPre ++ (body ++ (termPat k ++ W)))).drop
      (A.length + oscPre.length + body.length + (termPat k).length) = W := by
    rw [show A ++ (oscPre ++ (body ++ (termPat k ++ W)))
        = (A ++ (oscPre ++ (body ++ termPat k))) ++ W by simp]
    exact List.drop_left' (by simp only [List.length_append]; omega)
  rw [htake, hdrop]

theorem stripStep?_unterm {A u : List Char} (hA : plainSeg A) (hbel : belChar ∉ u)
    (hc1 : c1Char ∉ u) (hst : ¬ oscST <:+: u) :
    stripStep? (A ++ (oscPre ++ u)) = some A := by
  unfold stripStep?
  rw [idxOf?_pre_structured _ hA]
  simp only
  rw [endsAt_unterm hbel hc1 hst]
  simp only [minList, List.drop_length, List.append_nil, Option.some.injEq]
  rw [List.take_append_of_le_length (Nat.le_refl _)]
  simp

theorem not_infix_of_idxOf?_eq_none {pat s : List Char} (hne : pat ≠ [])
    (h : idxOf? pat s = none) : ¬ pat <:+: s := by
  induction s with
  | nil =>
      intro hc
      exact hne (List.infix_nil.mp hc)
  | cons a s ih =>
      intro hc
      unfold idxOf? at h
      by_cases hp : pat.isPrefixOf (a :: s)
      · rw [if_pos hp] at h
        exact Option.noConfusion h
      · rw [if_neg hp] at h
        rw [Option.map_eq_none'] at h
        obtain ⟨u, v, huv⟩ := hc
        cases u with
        | nil =>
            exact hp (List.isPrefixOf_iff_prefix.mpr ⟨v, by simpa using huv⟩)
        | cons b u' =>
            have : pat <:+: s := ⟨u', v, by
              have := huv
              simp only [List.cons_append] at this
              exact (List.cons.injEq b _ a s ▸ this).2⟩
            exact ih h this

theorem stripGo_succ (fuel : Nat) (s : List Char) :
    stripGo (fuel + 1) s =
      (match stripStep? s with
        | none => s
        | some next => stripGo fuel next) := rfl

theorem stripGo_plain {s : List Char} (h : plainSeg s) (fuel : Nat) :
    stripGo fuel s = s := by
  cases fuel with
  | zero => rfl
  | succ fuel =>
      rw [stripGo_succ, stripStep?_none_of_plain h]

theorem stripGo_glue_nil : ∀ (segs : List FrameSeg) (s0 : List Char) (fuel : Nat),
    plainSeg s0 → (∀ f ∈ segs, goodSeg f) → segs.length ≤ fuel →
    stripGo fuel (s0 ++ glueSegs segs) = s0 ++ trailsOf segs := by
  intro segs
  induction segs with
  | nil =>
      intro s0 fuel h0 _ _
      simp only [glueSegs, trailsOf, List.append_nil]
      exact stripGo_plain h0 fuel
  | cons f rest ih =>
      intro s0 fuel h0 hgood hfuel
      cases fuel with
      | zero => simp at hfuel
      | succ fuel =>
          have hf : goodSeg f := hgood f (List.mem_cons_self _ _)
          rw [stripGo_succ]
          rw [show s0 ++ glueSegs (f :: rest)
              = s0 ++ (oscPre ++ (f.body ++ (termPat f.kind ++ (f.trail ++ glueSegs rest)))) by
            simp [glueSegs]]
          rw [stripStep?_frame s0 (f.trail ++ glueSegs rest) h0 hf.1]
          simp only
          rw [show s0 ++ (f.trail ++ glueSegs rest) = (s0 ++ f.trail) ++ glueSegs rest by
            simp]
          rw [ih (s0 ++ f.trail) fuel (plainSeg_append h0 hf.2)
            (fun g hg => hgood g (List.mem_cons_of_mem f hg))
            (by simp at hfuel ⊢; omega)]
          simp [trailsOf]

theorem stripGo_glue_unterm : ∀ (segs : List FrameSeg) (s0 u : List Char) (fuel : Nat),
    plainSeg s0 → (∀ f ∈ segs, goodSeg f) →
    belChar ∉ u → c1Char ∉ u → idxOf? oscST u = none →
    segs.length + 1 ≤ fuel →
    stripGo fuel (s0 ++ glueSegs segs ++ (oscPre ++ u)) = s0 ++ trailsOf segs := by
  intro segs
  induction segs with
  | nil =>
      intro s0 u fuel h0 _ hbel hc1 hst hfuel
      cases fuel with
      | zero => simp at hfuel
      | succ fuel =>
          simp only [glueSegs, trailsOf, List.append_nil, List.nil_append]
          rw [stripGo_succ,
            stripStep?_unterm h0 hbel hc1 (not_infix_of_idxOf?_eq_none (by simp [oscST]) hst)]
          simp only
          exact stripGo_plain h0 fuel
  | cons f rest ih =>
      intro s0 u fuel h0 hgood hbel hc1 hst hfuel
      cases fuel with
      | zero => simp at hfuel
      | succ fuel =>
          have hf : goodSeg f := hgood f (List.mem_cons_self _ _)
          rw [stripGo_succ]
          rw [show s0 ++ glueSegs (f :: rest) ++ (oscPre ++ u)
              = s0 ++ (oscPre ++ (f.body ++ (termPat f.kind ++
                  (f.trail ++ (glueSegs rest ++ (oscPre ++ u)))))) by
            simp [glueSegs]]
          rw [stripStep?_frame s0 (f.trail ++ (glueSegs rest ++ (oscPre ++ u))) h0 hf.1]
          simp only
          rw [show s0 ++ (f.trail ++ (glueSegs rest ++ (oscPre ++ u)))
              = (s0 ++ f.trail) ++ glueSegs rest ++ (oscPre ++ u) by simp]
          rw [ih (s0 ++ f.trail) u fuel (plainSeg_append h0 hf.2)
            (fun g hg => hgood g (List.mem_cons_of_mem f hg)) hbel hc1 hst
            (by simp at hfuel ⊢; omega)]
          simp [trailsOf]

theorem glueSegs_length_ge : ∀ segs : List FrameSeg,
    6 * segs.length ≤ (glueSegs segs).length := by
  intro segs
  induction segs with
  | nil => simp [glueSegs]
  | cons f rest ih =>
      simp only [glueSegs, List.length_append, List.length_cons, oscPre_length]
      simp at ih ⊢
      omega

/-- C3: stripping text built from N well-terminated frames interleaved
with plain text removes exactly the frames and returns the surrounding
text verbatim; when the text additionally ends in an introducer followed
by text with no terminator of any kind, everything from that introducer
to the end is removed as well. -/
theorem c3_strip_frames (s0 u : List Char) (segs : List FrameSeg)
    (h0 : plainSeg s0) (hsegs : ∀ f ∈ segs, goodSeg f)
    (hbel : belChar ∉ u) (hc1 : c1Char ∉ u) (hst : containsSeq oscST u = false) :
    stripOscProgress (s0 ++ glueSegs segs) = s0 ++ trailsOf segs ∧
    stripOscProgress (s0 ++ glueSegs segs ++ (oscPre ++ u)) = s0 ++ trailsOf segs := by
  have hst' : idxOf? oscST u = none := by
    unfold containsSeq at hst
    cases h : idxOf? oscST u with
    | none => rfl
    | some i => rw [h] at hst; simp at hst
  have hg := glueSegs_length_ge segs
  constructor
  · unfold stripOscProgress
    apply stripGo_glue_nil segs s0 _ h0 hsegs
    simp only [List.length_append]
    omega
  · unfold stripOscProgress
    apply stripGo_glue_unterm segs s0 u _ h0 hsegs hbel hc1 hst'
    simp only [List.length_append]
    omega

/-- Witness for C3 at two concrete frames with surrounding text and a
concrete unterminated tail. -/
theorem c3_witness :
    plainSeg c3Pre ∧ (∀ f ∈ [c3Seg1, c3Seg2], goodSeg f) ∧
    belChar ∉ c3Tail ∧ c1Char ∉ c3Tail ∧ containsSeq oscST c3Tail = false ∧
    stripOscProgress (c3Pre ++ glueSegs [c3Seg1, c3Seg2])
      = c3Pre ++ trailsOf [c3Seg1, c3Seg2] ∧
    stripOscProgress (c3Pre ++ glueSegs [c3Seg1, c3Seg2] ++ (oscPre ++ c3Tail))
      = c3Pre ++ trailsOf [c3Seg1, c3Seg2] := by
  have h := c3_strip_frames c3Pre c3Tail [c3Seg1, c3Seg2]
    (by decide) (by decide) (by decide) (by decide) (by decide)
  exact ⟨by decide, by decide, by decide, by decide, by decide, h.1, h.2⟩

theorem stripStep?_shrink {current next : List Char}
    (h : stripStep? current = some next) : next.length + 6 ≤ current.length := by
  unfold stripStep? at h
  cases hs : idxOf? oscPre current with
  | none => rw [hs] at h; exact Option.noConfusion h
  | some start =>
      rw [hs] at h
      simp only [Option.some.injEq] at h
      obtain ⟨hpre, hbound⟩ := idxOf?_bounds hs
      rw [oscPre_length] at hbound
      cases hm : minList (endsAt current (start + oscPre.length)) with
      | none =>
          rw [hm] at h
          simp only [List.drop_length, List.append_nil] at h
          subst h
          rw [List.length_take]
          omega
      | some m =>
          rw [hm] at h
          simp only at h
          subst h
          have hmem := minList_mem hm
          unfold endsAt at hmem
          rw [List.mem_map] at hmem
          obtain ⟨⟨e', k'⟩, hmem, rfl⟩ := hmem
          have hb := termEnd?_some (mem_candidatesAt.mp hmem)
          rw [oscPre_length] at hb
          rw [List.length_append, List.length_take, List.length_drop]
          dsimp only at hb ⊢
          omega

theorem stripGo_no_intro : ∀ (fuel : Nat) (current : List Char),
    current.length < fuel → idxOf? oscPre (stripGo fuel current) = none := by
  intro fuel
  induction fuel with
  | zero => intro c h; omega
  | succ fuel ih =>
      intro c hc
      rw [stripGo_succ]
      cases hs : stripStep? c with
      | none =>
          simp only
          unfold stripStep? at hs
          cases hi : idxOf? oscPre c with
          | none => rfl
          | some start => rw [hi] at hs; exact Option.noConfusion hs
      | some next =>
          simp only
          have := stripStep?_shrink hs
          exact ih next (by omega)

/-- C10: the output of `stripOscProgress` never contains the OSC 9;4
introducer: the removal loop reruns on its own output until
`current.includes(OSC_PROGRESS_PREFIX)` fails, so an introducer formed by
concatenating the text on both sides of a removed span is itself removed. -/
theorem c10_strip_leaves_no_introducer (text : List Char) :
    containsSeq oscPre (stripOscProgress text) = false := by
  unfold stripOscProgress containsSeq
  rw [stripGo_no_intro (text.length + 1) text (by omega)]
  rfl

theorem natDigitsGo_mem : ∀ (fuel n : Nat), n < fuel →
    ∀ c ∈ natDigitsGo fuel n, c ∈ digitChars := by
  intro fuel
  induction fuel with
  | zero => intro n h; omega
  | succ fuel ih =>
      intro n hn c hc
      rw [show natDigitsGo (fuel + 1) n
          = if n < 10 then [Nat.digitChar n]
            else natDigitsGo fuel (n / 10) ++ [Nat.digitChar (n % 10)] from rfl] at hc
      by_cases h10 : n < 10
      · rw [if_pos h10] at hc
        simp only [List.mem_singleton] at hc
        subst hc
        exact (show ∀ m : Nat, m < 10 → Nat.digitChar m ∈ digitChars by decide) n h10
      · rw [if_neg h10] at hc
        rw [List.mem_append] at hc
        rcases hc with hc | hc
        · have hdiv : n / 10 < n := Nat.div_lt_self (by omega) (by omega)
          exact ih (n / 10) (by omega) c hc
        · simp only [List.mem_singleton] at hc
          subst hc
          exact (show ∀ m : Nat, m < 10 → Nat.digitChar m ∈ digitChars by decide)
            (n % 10) (Nat.mod_lt n (by omega))

theorem natDigits_mem {n : Nat} {c : Char} (hc : c ∈ natDigits n) : c ∈ digitChars :=
  natDigitsGo_mem (n + 1) n (Nat.lt_succ_self n) c hc

theorem digitChars_plain : ∀ c ∈ digitChars,
    c ≠ escChar ∧ c ≠ belChar ∧ c ≠ c1Char := by decide

theorem plainSeg_natDigits (n : Nat) : plainSeg (natDigits n) := by
  refine ⟨fun hm => ?_, fun hm => ?_, fun hm => ?_⟩
  · exact (digitChars_plain _ (natDigits_mem hm)).1 rfl
  · exact (digitChars_plain _ (natDigits_mem hm)).2.1 rfl
  · exact (digitChars_plain _ (natDigits_mem hm)).2.2 rfl

theorem plainSeg_of_sanitized {label : List Char} (h : sanitizeLabel label = label) :
    plainSeg label := by
  refine ⟨fun hm => ?_, fun hm => ?_, fun hm => ?_⟩
  · exact (sanitizeLabel_mem (show escChar ∈ sanitizeLabel label by rw [h]; exact hm)).1 rfl
  · exact (sanitizeLabel_mem (show belChar ∈ sanitizeLabel label by rw [h]; exact hm)).2.1 rfl
  · exact (sanitizeLabel_mem (show c1Char ∈ sanitizeLabel label by rw [h]; exact hm)).2.2.1 rfl

theorem plainSeg_frameBody (st : Nat) (percent : Option ℚ) {label : List Char}
    (h : sanitizeLabel label = label) : plainSeg (frameBody st percent label) := by
  have hl := plainSeg_of_sanitized h
  have hsemi : plainSeg [';'] := by decide
  have hsemi2 : plainSeg [';', ';'] := by decide
  cases percent with
  | none =>
      exact plainSeg_append (plainSeg_append (plainSeg_natDigits st) hsemi2) hl
  | some p =>
      exact plainSeg_append (plainSeg_append (plainSeg_append
        (plainSeg_append (plainSeg_natDigits st) hsemi) (plainSeg_natDigits _)) hsemi) hl

theorem sendFrame_eq (st : Nat) (percent : Option ℚ) (label term : List Char) :
    sendFrame st percent label term = oscPre ++ (frameBody st percent label ++ term) := by
  cases percent <;> simp [sendFrame, frameBody]

theorem findGo_structured {body : List Char} (A W : List Char) {k : OscTerminatorKind}
    (hA : plainSeg A) (hbody : plainSeg body) (fuel : Nat) :
    findGo (fuel + 1) (A ++ (oscPre ++ (body ++ (termPat k ++ W)))) 0 =
      ⟨A.length, A.length + oscPre.length + body.length + (termPat k).length,
        oscPre ++ (body ++ termPat k), k⟩ ::
        findGo fuel (A ++ (oscPre ++ (body ++ (termPat k ++ W))))
          (A.length + oscPre.length + body.length + (termPat k).length) := by
  rw [findGo_succ]
  have hlen : 0 < (A ++ (oscPre ++ (body ++ (termPat k ++ W)))).length := by
    simp [oscPre]
  rw [if_pos hlen]
  have hidx : idxFrom oscPre (A ++ (oscPre ++ (body ++ (termPat k ++ W)))) 0
      = some A.length := by
    unfold idxFrom
    rw [List.drop_zero, idxOf?_pre_structured _ hA]
    simp
  rw [hidx]
  simp only
  rw [show A.length + oscPre.length = A.length + oscPre.length from rfl,
    bestCandidate_structured A W hbody]
  simp only
  have hslice : ((A ++ (oscPre ++ (body ++ (termPat k ++ W)))).take
      (A.length + oscPre.length + body.length + (termPat k).length)).drop A.length
      = oscPre ++ (body ++ termPat k) := by
    rw [show A ++ (oscPre ++ (body ++ (termPat k ++ W)))
        = (A ++ (oscPre ++ (body ++ termPat k))) ++ W by simp]
    rw [List.take_left' (by simp only [List.length_append]; omega)]
    exact List.drop_left A (oscPre ++ (body ++ termPat k))
  rw [hslice]

/-- C6 (amended): encoding a frame for any state, percent in `[0, 100]` or
absent, already-sanitized label and emitted terminator kind (ST or BEL),
then scanning any text `A ++ frame ++ B` whose preceding part `A` contains
no ESC, BEL or C1-ST character, recovers exactly one match lying within
the encoded span, and its `raw` equals the encoded sequence character for
character. -/
theorem c6_roundtrip (A B label : List Char) (st : Nat) (p : Option ℚ)
    (k : OscTerminatorKind) (hA : plainSeg A)
    (hlabel : sanitizeLabel label = label)
    (hp : ∀ q, p = some q → ∃ n : Nat, n ≤ 100 ∧ q = (n : ℚ))
    (hk : k = OscTerminatorKind.st ∨ k = OscTerminatorKind.bel) :
    (findOscProgressSequences
        (A ++ (sendFrame st p label (termPat k) ++ B))).filter
        (fun m => decide (A.length ≤ m.start) &&
          decide (m.endEx ≤ A.length + (sendFrame st p label (termPat k)).length))
      = [⟨A.length, A.length + (sendFrame st p label (termPat k)).length,
          sendFrame st p label (termPat k), k⟩] := by
  have hbody := plainSeg_frameBody st p hlabel
  have henc := sendFrame_eq st p label (termPat k)
  have hEeq : A.length + (sendFrame st p label (termPat k)).length
      = A.length + oscPre.length + (frameBody st p label).length + (termPat k).length := by
    rw [henc]
    simp only [List.length_append]
    omega
  rw [hEeq, henc]
  rw [show A ++ (oscPre ++ (frameBody st p label ++ termPat k) ++ B)
      = A ++ (oscPre ++ (frameBody st p label ++ (termPat k ++ B))) by simp]
  unfold findOscProgressSequences
  rw [findGo_structured A B hA hbody]
  rw [List.filter_cons, if_pos (by simp)]
  congr 1
  rw [List.filter_eq_nil_iff]
  intro m hm
  obtain ⟨h1, -, -, -, h5⟩ := findGo_mem hm
  rw [oscPre_length] at h5
  simp only [Bool.and_eq_true, decide_eq_true_eq, not_and]
  intro _
  omega

/-- Witness for C6 at a concrete frame between plain characters. -/
theorem c6_witness :
    plainSeg ['a'] ∧ sanitizeLabel ['X'] = ['X'] ∧
    (findOscProgressSequences
        (['a'] ++ (sendFrame 1 none ['X'] (termPat .bel) ++ ['b']))).filter
        (fun m => decide ((['a'] : List Char).length ≤ m.start) &&
          decide (m.endEx ≤ (['a'] : List Char).length
            + (sendFrame 1 none ['X'] (termPat .bel)).length))
      = [⟨(['a'] : List Char).length,
          (['a'] : List Char).length + (sendFrame 1 none ['X'] (termPat .bel)).length,
          sendFrame 1 none ['X'] (termPat .bel), OscTerminatorKind.bel⟩] :=
  ⟨by decide, by decide,
   c6_roundtrip ['a'] ['b'] ['X'] 1 none .bel (by decide) (by decide)
     (fun q h => nomatch h) (Or.inr rfl)⟩

/-- C6 counterexample: the round-trip fails for arbitrary surrounding
text. With an unterminated introducer before the encoded frame, the
scanner starts its match at that introducer and ends inside the frame, so
no match lies within the encoded span with `raw` equal to the frame. -/
theorem c6_counterexample :
    sanitizeLabel ['l'] = ['l'] ∧
    (findOscProgressSequences (c6Bad ++ c6Enc)).filter
      (fun m => decide (c6Bad.length ≤ m.start) &&
        decide (m.endEx ≤ c6Bad.length + c6Enc.length)) = [] :=
  ⟨by decide, by decide⟩
